import Mathlib

/-!
Verification development for the `astro-llms-txt` integration
(`src/index.ts`, `src/accessibilityTransformer.ts`).

The pattern matcher (`micromatch.isMatch`) is an external dependency; it is
embedded as an explicit function argument `isMatch : String → String → Bool`
throughout, so every theorem holds for an arbitrary matcher.
-/

/-- JS `Array.prototype.findIndex` restricted to returning the index of the
first element satisfying `p` as an `Option Nat` (`none` plays the role of
JS `-1`, converted below by `findIndexJS`). -/
def firstIdx? {α : Type} (p : α → Bool) : List α → Option Nat
  | [] => none
  | a :: l => if p a then some 0 else (firstIdx? p l).map (· + 1)

/-- JS `Array.prototype.findIndex`: index of the first match, `-1` if none. -/
def findIndexJS {α : Type} (p : α → Bool) (l : List α) : Int :=
  match firstIdx? p l with
  | some i => (i : Int)
  | none => -1

theorem firstIdx?_lt_length {α : Type} (p : α → Bool) :
    ∀ (l : List α) (i : Nat), firstIdx? p l = some i → i < l.length := by
  intro l
  induction l with
  | nil => intro i h; simp [firstIdx?] at h
  | cons a l ih =>
    intro i h
    simp only [firstIdx?] at h
    by_cases hp : p a = true
    · simp [hp] at h
      simp only [List.length_cons]
      omega
    · simp [hp] at h
      obtain ⟨j, hj, rfl⟩ := h
      have := ih j hj
      simp only [List.length_cons]
      omega

/-- The integer `prefixLength` computed inside `prioritizePathname`
(src/index.ts lines 229-235), including JS `findIndex`'s `-1` convention:
`demoted = demote.findIndex(m id)`, `promoted = demoted > -1 ? -1 :
promote.findIndex(m id)`, `prefixLength = (promoted > -1 ? promote.length -
promoted : 0) + demote.length - demoted - 1`. -/
def prefixLengthInt (isMatch : String → String → Bool) (id : String)
    (promote demote : List String) : Int :=
  let demoted : Int := findIndexJS (fun expr => isMatch id expr) demote
  let promoted : Int :=
    if demoted > -1 then -1 else findIndexJS (fun expr => isMatch id expr) promote
  (if promoted > -1 then (promote.length : Int) - promoted else 0)
    + (demote.length : Int) - demoted - 1

/-- Build a sort key: `'_'.repeat(n) + id`. -/
def mkKey (n : Nat) (id : String) : String :=
  String.mk (List.replicate n '_') ++ id

/-- Embedding of `prioritizePathname` (src/index.ts lines 228-237):
`'_'.repeat(prefixLength) + id`. -/
def prioritizePathname (isMatch : String → String → Bool) (id : String)
    (promote demote : List String) : String :=
  mkKey (prefixLengthInt isMatch id promote demote).toNat id

/-- The sentinel-prefix length the code actually produces, written in the
style of §4.3's case analysis (first demote match wins; otherwise first
promote match; otherwise neither). -/
def codeBias (isMatch : String → String → Bool) (id : String)
    (promote demote : List String) : Nat :=
  match firstIdx? (fun expr => isMatch id expr) demote with
  | some d => demote.length - d - 1
  | none =>
    match firstIdx? (fun expr => isMatch id expr) promote with
    | some p => (promote.length - p) + demote.length
    | none => demote.length

/-- The bias exactly as the specification states it (§4.3 step 3):
promoted at `p` ⇒ `(promoteCount - p - 1) + demoteCount`; demoted at `d`
⇒ `demoteCount - d - 1`; neither ⇒ `0`. -/
def specBiasC1 (isMatch : String → String → Bool) (id : String)
    (promote demote : List String) : Nat :=
  match firstIdx? (fun expr => isMatch id expr) demote with
  | some d => demote.length - d - 1
  | none =>
    match firstIdx? (fun expr => isMatch id expr) promote with
    | some p => (promote.length - p - 1) + demote.length
    | none => 0

/-- Modelled from the spec: the locale comparator (`Intl.Collator`, an
external capability per §1/§6) restricted to the property §4.3 step 4
requires of it — the sentinel `'_'` sorts strictly before every character
appearing in real paths; all other characters are ordered by code point. -/
def charWeight (c : Char) : Nat :=
  if c = '_' then 0 else c.toNat + 1

/-- Lexicographic comparison of character lists under `charWeight`. -/
def collateL : List Char → List Char → Ordering
  | [], [] => .eq
  | [], _ :: _ => .lt
  | _ :: _, [] => .gt
  | a :: as, b :: bs =>
    if charWeight a < charWeight b then .lt
    else if charWeight b < charWeight a then .gt
    else collateL as bs

/-- Modelled from the spec: `collator.compare(a, b)` with `.lt` meaning `a`
is ordered before `b` in the sorted output. -/
def collatorCompare (a b : String) : Ordering :=
  collateL a.data b.data

theorem data_mkAppend (l : List Char) (s : String) :
    (String.mk l ++ s).data = l ++ s.data := rfl

theorem prefixLengthInt_eq_codeBias (isMatch : String → String → Bool)
    (id : String) (promote demote : List String) :
    prefixLengthInt isMatch id promote demote
      = (codeBias isMatch id promote demote : Int) := by
  unfold prefixLengthInt codeBias findIndexJS
  cases hd : firstIdx? (fun expr => isMatch id expr) demote with
  | some d =>
    have hdl := firstIdx?_lt_length _ _ _ hd
    have h1 : ((d : Int)) > -1 := by omega
    simp only [h1, if_pos, if_true]
    have h2 : ¬ ((-1 : Int) > -1) := by omega
    simp only [h2, if_false, if_neg, not_false_iff]
    omega
  | none =>
    have h2 : ¬ ((-1 : Int) > -1) := by omega
    simp only [h2, if_neg, not_false_iff, if_false]
    cases hp : firstIdx? (fun expr => isMatch id expr) promote with
    | some p =>
      have hpl := firstIdx?_lt_length _ _ _ hp
      have h1 : ((p : Int)) > -1 := by omega
      simp only [h1, if_pos, if_true]
      omega
    | none =>
      simp only [h2, if_neg, not_false_iff, if_false]
      omega

theorem collateL_replicate_lt :
    ∀ (n m : Nat) (l1 l2 : List Char), n < m → l2 ≠ [] →
      l2.head? ≠ some '_' →
      collateL (List.replicate m '_' ++ l1) (List.replicate n '_' ++ l2) = .lt := by
  intro n
  induction n with
  | zero =>
    intro m l1 l2 hm hne hh
    match m, l2 with
    | m + 1, c :: cs =>
      have hc : c ≠ '_' := by
        intro h
        exact hh (by simp [h])
      have hw : charWeight '_' < charWeight c := by
        unfold charWeight
        rw [if_pos rfl, if_neg hc]
        omega
      simp [List.replicate_succ, collateL, hw]
  | succ n ih =>
    intro m l1 l2 hm hne hh
    match m with
    | m + 1 =>
      have hstep : ¬ charWeight '_' < charWeight '_' := by omega
      simp only [List.replicate_succ, List.cons_append, collateL, if_neg hstep]
      exact ih m l1 l2 (by omega) hne hh

theorem collator_mkKey_lt (m n : Nat) (id1 id2 : String) (h : n < m)
    (hne : id2.data ≠ []) (hh : id2.data.head? ≠ some '_') :
    collatorCompare (mkKey m id1) (mkKey n id2) = .lt := by
  unfold collatorCompare mkKey
  rw [data_mkAppend, data_mkAppend]
  exact collateL_replicate_lt n m id1.data id2.data h hne hh

/-- Exact-equality pattern matcher, used to instantiate the abstract
`micromatch` parameter on concrete inputs. -/
def eqMatch : String → String → Bool := fun a b => a == b

/-- C1 counterexample: with `promote = ["a"]`, `demote = []` and the path
`"a"` (matching the promote pattern at index `p = 0`), the specification's
formula gives `bias = (1 - 0 - 1) + 0 = 0`, so the sort key would be the
bare path; the code instead prefixes one sentinel (`"_a"`). -/
theorem c1_counterexample :
    prioritizePathname eqMatch "a" ["a"] []
      ≠ mkKey (specBiasC1 eqMatch "a" ["a"] []) "a" := by decide

/-- C1 (amended): `prioritizePathname` prefixes the path with exactly
`bias` sentinel characters where: if the first demote match has index `d`,
`bias = demoteCount - d - 1`; if no demote pattern matches and the first
promote match has index `p`, `bias = (promoteCount - p) + demoteCount`;
if neither list matches, `bias = demoteCount`. -/
theorem c1_prioritizePathname_eq_mkKey_codeBias
    (isMatch : String → String → Bool) (id : String)
    (promote demote : List String) :
    prioritizePathname isMatch id promote demote
      = mkKey (codeBias isMatch id promote demote) id := by
  unfold prioritizePathname
  rw [prefixLengthInt_eq_codeBias]
  simp

/-- C9: the sentinel-prefix length computed by the code is non-negative for
every path, matcher and pattern lists (all three cases), so `'_'.repeat`
never receives a negative count. -/
theorem c9_prefixLength_nonneg (isMatch : String → String → Bool)
    (id : String) (promote demote : List String) :
    0 ≤ prefixLengthInt isMatch id promote demote := by
  rw [prefixLengthInt_eq_codeBias]
  exact Int.ofNat_nonneg _

/-- C2 counterexample: with `promote = ["docs/b"]`, `demote = []`, the key
for `"docs/b"` carries the longer sentinel prefix, yet the comparator
orders it strictly EARLIER (`.lt`) than the key for `"docs/a"`, not later
as the claim states. -/
theorem c2_counterexample :
    (prefixLengthInt eqMatch "docs/a" ["docs/b"] []).toNat
        < (prefixLengthInt eqMatch "docs/b" ["docs/b"] []).toNat
    ∧ collatorCompare (prioritizePathname eqMatch "docs/b" ["docs/b"] [])
        (prioritizePathname eqMatch "docs/a" ["docs/b"] []) = .lt := by decide

/-- C2 (amended): among sort keys built for paths of the same run, the key
with the strictly longer sentinel prefix sorts EARLIER under the comparator
(the path with more sentinel characters appears earlier in the ordered
output), provided the competing path is non-empty and does not start with
the sentinel character. -/
theorem c2_longer_prefix_sorts_earlier (isMatch : String → String → Bool)
    (promote demote : List String) (id1 id2 : String)
    (hlen : (prefixLengthInt isMatch id2 promote demote).toNat
      < (prefixLengthInt isMatch id1 promote demote).toNat)
    (hne : id2.data ≠ []) (hh : id2.data.head? ≠ some '_') :
    collatorCompare (prioritizePathname isMatch id1 promote demote)
      (prioritizePathname isMatch id2 promote demote) = .lt := by
  unfold prioritizePathname
  exact collator_mkKey_lt _ _ _ _ hlen hne hh

theorem c2_longer_prefix_sorts_earlier_witness :
    (prefixLengthInt eqMatch "docs/a" ["docs/b"] []).toNat
      < (prefixLengthInt eqMatch "docs/b" ["docs/b"] []).toNat
    ∧ collatorCompare (prioritizePathname eqMatch "docs/b" ["docs/b"] [])
        (prioritizePathname eqMatch "docs/a" ["docs/b"] []) = .lt :=
  ⟨by decide,
   c2_longer_prefix_sorts_earlier eqMatch ["docs/b"] [] "docs/b" "docs/a"
     (by decide) (by decide) (by decide)⟩

/-- C3: under the comparator, (a) a path matching a demote pattern is
ordered after a path matching neither list, and (b) of two paths matching
promote patterns (and no demote pattern), the one whose first promote match
is listed earlier is ordered before the other. Paths are assumed non-empty
and not to start with the sentinel character. -/
theorem c3_demote_after_neutral_and_promote_order
    (isMatch : String → String → Bool) (promote demote : List String)
    (x y z w : String) :
    (∀ d : Nat, firstIdx? (fun e => isMatch x e) demote = some d →
      firstIdx? (fun e => isMatch y e) demote = none →
      firstIdx? (fun e => isMatch y e) promote = none →
      x.data ≠ [] → x.data.head? ≠ some '_' →
      collatorCompare (prioritizePathname isMatch y promote demote)
        (prioritizePathname isMatch x promote demote) = .lt)
    ∧ (∀ p1 p2 : Nat, firstIdx? (fun e => isMatch z e) promote = some p1 →
        firstIdx? (fun e => isMatch w e) promote = some p2 →
        firstIdx? (fun e => isMatch z e) demote = none →
        firstIdx? (fun e => isMatch w e) demote = none →
        p1 < p2 → w.data ≠ [] → w.data.head? ≠ some '_' →
        collatorCompare (prioritizePathname isMatch z promote demote)
          (prioritizePathname isMatch w promote demote) = .lt) := by
  constructor
  · intro d hxd hyd hyp hne hh
    unfold prioritizePathname
    apply collator_mkKey_lt _ _ _ _ _ hne hh
    rw [prefixLengthInt_eq_codeBias, prefixLengthInt_eq_codeBias]
    have hdl := firstIdx?_lt_length _ _ _ hxd
    unfold codeBias
    rw [hxd, hyd, hyp]
    simp only [Int.toNat_ofNat]
    omega
  · intro p1 p2 hzp hwp hzd hwd hp hne hh
    unfold prioritizePathname
    apply collator_mkKey_lt _ _ _ _ _ hne hh
    rw [prefixLengthInt_eq_codeBias, prefixLengthInt_eq_codeBias]
    have hpl := firstIdx?_lt_length _ _ _ hzp
    have hpl2 := firstIdx?_lt_length _ _ _ hwp
    unfold codeBias
    rw [hzp, hwp, hzd, hwd]
    simp only [Int.toNat_ofNat]
    omega

theorem c3_demote_after_neutral_and_promote_order_witness :
    collatorCompare (prioritizePathname eqMatch "n" ["p1", "p2"] ["q"])
      (prioritizePathname eqMatch "q" ["p1", "p2"] ["q"]) = .lt
    ∧ collatorCompare (prioritizePathname eqMatch "p1" ["p1", "p2"] ["q"])
        (prioritizePathname eqMatch "p2" ["p1", "p2"] ["q"]) = .lt :=
  ⟨(c3_demote_after_neutral_and_promote_order eqMatch ["p1", "p2"] ["q"]
      "q" "n" "p1" "p2").1 0 (by decide) (by decide) (by decide) (by decide)
      (by decide),
   (c3_demote_after_neutral_and_promote_order eqMatch ["p1", "p2"] ["q"]
      "q" "n" "p1" "p2").2 0 1 (by decide) (by decide) (by decide) (by decide)
      (by decide) (by decide) (by decide)⟩

/-- Embedding of the selection step of `processDocSet` (src/index.ts lines
106-116): keep the pathnames matching at least one include pattern; then,
when the exclude list is present (`if (set.exclude)`; in JS an empty array
is also truthy), drop those matching some exclude pattern. -/
def selectPages (isMatch : String → String → Bool) (pages : List String)
    (includePats : List String) (excludePats : Option (List String)) :
    List String :=
  let matched := pages.filter
    (fun pn => includePats.any (fun pat => isMatch pn pat))
  match excludePats with
  | some ex => matched.filter (fun pn => !(ex.any (fun pat => isMatch pn pat)))
  | none => matched

/-- C4: a page is selected iff it is in the rendered page list, matches at
least one include pattern, and matches no exclude pattern (an absent or
empty exclude list excludes nothing); and when no page matches any include
pattern, the selection is empty. -/
theorem c4_selection_iff (isMatch : String → String → Bool)
    (pages : List String) (includePats : List String)
    (excludePats : Option (List String)) :
    (∀ pn, pn ∈ selectPages isMatch pages includePats excludePats ↔
      (pn ∈ pages ∧ includePats.any (fun pat => isMatch pn pat) = true
        ∧ (excludePats.getD []).any (fun pat => isMatch pn pat) = false))
    ∧ ((∀ pn ∈ pages, includePats.any (fun pat => isMatch pn pat) = false) →
        selectPages isMatch pages includePats excludePats = []) := by
  constructor
  · intro pn
    cases excludePats with
    | none =>
      simp [selectPages, List.mem_filter]
    | some ex =>
      simp only [selectPages, List.mem_filter, List.any_eq_true,
        List.any_eq_false, Bool.not_eq_true', and_assoc]
      constructor
      · rintro ⟨h1, h2, h3⟩
        exact ⟨h1, h2, h3⟩
      · rintro ⟨h1, h2, h3⟩
        exact ⟨h1, h2, h3⟩
  · intro hnone
    cases excludePats with
    | none =>
      simp only [selectPages]
      rw [List.filter_eq_nil_iff]
      intro pn hpn
      simp [hnone pn hpn]
    | some ex =>
      simp only [selectPages]
      rw [List.filter_eq_nil_iff]
      intro pn hpn
      rw [List.mem_filter] at hpn
      have := hnone pn hpn.1
      simp [this] at hpn

theorem c4_selection_iff_witness :
    ("en/a" ∈ selectPages eqMatch ["en/a", "en/b"] ["en/a"] (some []) ↔
      ("en/a" ∈ ["en/a", "en/b"]
        ∧ (["en/a"].any fun pat => eqMatch "en/a" pat) = true
        ∧ ((some ([] : List String)).getD []).any
            (fun pat => eqMatch "en/a" pat) = false))
    ∧ selectPages eqMatch ["en/b"] ["en/a"] (some ["en/b"]) = [] :=
  ⟨(c4_selection_iff eqMatch ["en/a", "en/b"] ["en/a"] (some [])).1 "en/a",
   (c4_selection_iff eqMatch ["en/b"] ["en/a"] (some ["en/b"])).2
     (by decide)⟩

/-- A hast property value as used by the transformer: either a string or a
boolean (`aria-hidden` may be parsed as either, per the checks in
src/accessibilityTransformer.ts lines 17 and 36-39). -/
inductive PropVal where
  | str (s : String)
  | bool (b : Bool)
deriving DecidableEq, Repr

mutual

/-- A hast content node: an element (tag name, properties, children) or a
text node. -/
inductive HNode where
  | element (tag : String) (props : List (String × PropVal)) (children : HForest)
  | text (value : String)

/-- A list of sibling hast nodes (the children of an element, or the
children of the hast root the transformer receives). -/
inductive HForest where
  | nil
  | cons (head : HNode) (tail : HForest)

end

/-- Look up a property by name (hast `node.properties[key]`). -/
def getProp (props : List (String × PropVal)) (k : String) : Option PropVal :=
  (props.find? (fun kv => kv.1 == k)).map (fun kv => kv.2)

/-- Test of the first `remove` call (src/accessibilityTransformer.ts lines
14-18): an element whose `ariaHidden` property is boolean `true` or the
string `"true"`. -/
def ariaHiddenTest : HNode → Bool
  | .element _ props _ =>
    getProp props "ariaHidden" == some (.bool true)
      || getProp props "ariaHidden" == some (.str "true")
  | .text _ => false

/-- Test of the second `remove` call (lines 21-26): an `img` element whose
`alt` property is exactly the empty string. -/
def emptyAltImgTest : HNode → Bool
  | .element tag props _ =>
    tag == "img" && getProp props "alt" == some (.str "")
  | .text _ => false

/-- The aria-label value the loop at lines 31-53 acts on: present, not
`""`, and truthy (`if (ariaLabelValue)`); a boolean `true` value passes the
JS checks as-is and ends up as the text node's value via the `as string`
cast, rendered here as `"true"`. -/
def labelValue? (props : List (String × PropVal)) : Option String :=
  match getProp props "ariaLabel" with
  | some (.str s) => if s == "" then none else some s
  | some (.bool b) => if b then some "true" else none
  | none => none

/-- Whether a sibling list is empty (hast `children.length === 0`). -/
def isNilF : HForest → Bool
  | .nil => true
  | .cons _ _ => false

mutual

/-- `unist-util-remove`'s preorder visit of one node (the library is called
with no options, so `cascade` keeps its default `true`): a node passing
`test` is dropped with its whole subtree (`none`); otherwise its children
are filtered recursively, and an element that had children but whose
children were all filtered out is itself dropped as well (the cascade). -/
def removeNode (test : HNode → Bool) : HNode → Option HNode
  | .element tag props cs =>
    if test (.element tag props cs) then none
    else
      let cs2 := removeForest test cs
      if !isNilF cs && isNilF cs2 then none
      else some (.element tag props cs2)
  | .text v => if test (.text v) then none else some (.text v)

/-- `unist-util-remove` over a sibling list: the surviving children, in
order. -/
def removeForest (test : HNode → Bool) : HForest → HForest
  | .nil => .nil
  | .cons n ns =>
    match removeNode test n with
    | some n2 => .cons n2 (removeForest test ns)
    | none => removeForest test ns

end

mutual

/-- The aria-label pass (lines 29-54): an element with a truthy
`ariaLabel` has its children replaced by the single text node carrying the
label; other elements are processed recursively. -/
def applyAriaNode : HNode → HNode
  | .element tag props cs =>
    match labelValue? props with
    | some s => .element tag props (.cons (.text s) .nil)
    | none => .element tag props (applyAriaForest cs)
  | .text v => .text v

def applyAriaForest : HForest → HForest
  | .nil => .nil
  | .cons n ns => .cons (applyAriaNode n) (applyAriaForest ns)

end

/-- Embedding of `accessibilityTransformer` (src/accessibilityTransformer.ts
lines 10-57), applied to the children of the hast root: remove aria-hidden
subtrees, then remove empty-alt images (each `remove` pass cascading away
emptied parents, per the utility's default), then substitute aria-label
text. -/
def accessibilityTransformer (tree : HForest) : HForest :=
  applyAriaForest (removeForest emptyAltImgTest (removeForest ariaHiddenTest tree))

mutual

/-- `allN p n`: `p` holds at `n` and at every node of its subtree. -/
def allN (p : HNode → Bool) : HNode → Bool
  | .element tag props cs => p (.element tag props cs) && allF p cs
  | .text v => p (.text v)

/-- `allF p cs`: `p` holds at every node of every tree in the forest. -/
def allF (p : HNode → Bool) : HForest → Bool
  | .nil => true
  | .cons n ns => allN p n && allF p ns

end

mutual

/-- Every element with a truthy aria-label already has exactly the label's
text node as its sole child. -/
def labelGoodN : HNode → Bool
  | .element _ props cs =>
    (match labelValue? props, cs with
     | some s, .cons (.text v) .nil => v == s
     | some _, _ => false
     | none, _ => true)
    && labelGoodF cs
  | .text _ => true

def labelGoodF : HForest → Bool
  | .nil => true
  | .cons n ns => labelGoodN n && labelGoodF ns

end

/-- A forest on which all three accessibility rules are already satisfied. -/
def accGoodF (cs : HForest) : Bool :=
  allF (fun n => !ariaHiddenTest n) cs
    && allF (fun n => !emptyAltImgTest n) cs
    && labelGoodF cs

theorem ariaHiddenTest_indep (tag : String) (props : List (String × PropVal))
    (cs cs' : HForest) :
    ariaHiddenTest (.element tag props cs)
      = ariaHiddenTest (.element tag props cs') := rfl

theorem emptyAltImgTest_indep (tag : String) (props : List (String × PropVal))
    (cs cs' : HForest) :
    emptyAltImgTest (.element tag props cs)
      = emptyAltImgTest (.element tag props cs') := rfl

mutual

theorem allN_removeNode (test : HNode → Bool)
    (hp : ∀ tag props cs cs', test (.element tag props cs)
      = test (.element tag props cs')) :
    ∀ n n2 : HNode, removeNode test n = some n2 →
      allN (fun x => !test x) n2 = true
  | .element tag props cs, n2, h => by
    simp only [removeNode] at h
    by_cases ht : test (.element tag props cs) = true
    · rw [if_pos ht] at h
      exact absurd h (by simp)
    · rw [if_neg ht] at h
      by_cases hc : (!isNilF cs && isNilF (removeForest test cs)) = true
      · rw [if_pos hc] at h
        exact absurd h (by simp)
      · rw [if_neg hc] at h
        simp only [Option.some.injEq] at h
        subst h
        have hrw := hp tag props (removeForest test cs) cs
        simp only [allN, hrw, Bool.and_eq_true, Bool.not_eq_true']
        exact ⟨by simpa using ht, allF_removeForest test hp cs⟩
  | .text v, n2, h => by
    simp only [removeNode] at h
    by_cases ht : test (.text v) = true
    · rw [if_pos ht] at h
      exact absurd h (by simp)
    · rw [if_neg ht] at h
      simp only [Option.some.injEq] at h
      subst h
      simp only [allN, Bool.not_eq_true']
      simpa using ht

theorem allF_removeForest (test : HNode → Bool)
    (hp : ∀ tag props cs cs', test (.element tag props cs)
      = test (.element tag props cs')) :
    ∀ cs : HForest, allF (fun x => !test x) (removeForest test cs) = true
  | .nil => rfl
  | .cons n ns => by
    simp only [removeForest]
    cases hr : removeNode test n with
    | some n2 =>
      simp only [allF, Bool.and_eq_true]
      exact ⟨allN_removeNode test hp n n2 hr, allF_removeForest test hp ns⟩
    | none => simpa using allF_removeForest test hp ns

end

mutual

theorem allN_removeNode_pres (p test : HNode → Bool)
    (hp : ∀ tag props cs cs', p (.element tag props cs)
      = p (.element tag props cs')) :
    ∀ n n2 : HNode, allN p n = true → removeNode test n = some n2 →
      allN p n2 = true
  | .element tag props cs, n2, h, hr => by
    simp only [allN, Bool.and_eq_true] at h
    simp only [removeNode] at hr
    by_cases ht : test (.element tag props cs) = true
    · rw [if_pos ht] at hr
      exact absurd hr (by simp)
    · rw [if_neg ht] at hr
      by_cases hc : (!isNilF cs && isNilF (removeForest test cs)) = true
      · rw [if_pos hc] at hr
        exact absurd hr (by simp)
      · rw [if_neg hc] at hr
        simp only [Option.some.injEq] at hr
        subst hr
        have hrw := hp tag props (removeForest test cs) cs
        simp only [allN, hrw, h.1, Bool.true_and]
        exact allF_removeForest_pres p test hp cs h.2
  | .text v, n2, h, hr => by
    simp only [removeNode] at hr
    by_cases ht : test (.text v) = true
    · rw [if_pos ht] at hr
      exact absurd hr (by simp)
    · rw [if_neg ht] at hr
      simp only [Option.some.injEq] at hr
      subst hr
      exact h

theorem allF_removeForest_pres (p test : HNode → Bool)
    (hp : ∀ tag props cs cs', p (.element tag props cs)
      = p (.element tag props cs')) :
    ∀ cs : HForest, allF p cs = true → allF p (removeForest test cs) = true
  | .nil, _ => rfl
  | .cons n ns, h => by
    simp only [allF, Bool.and_eq_true] at h
    simp only [removeForest]
    cases hr : removeNode test n with
    | some n2 =>
      simp only [allF, Bool.and_eq_true]
      exact ⟨allN_removeNode_pres p test hp n n2 h.1 hr,
        allF_removeForest_pres p test hp ns h.2⟩
    | none => simpa using allF_removeForest_pres p test hp ns h.2

end

mutual

theorem allN_applyAria_pres (p : HNode → Bool)
    (hp : ∀ tag props cs cs', p (.element tag props cs)
      = p (.element tag props cs'))
    (htext : ∀ v, p (.text v) = true) :
    ∀ n : HNode, allN p n = true → allN p (applyAriaNode n) = true
  | .element tag props cs, h => by
    simp only [allN, Bool.and_eq_true] at h
    cases hl : labelValue? props with
    | some s =>
      have hrw := hp tag props (.cons (.text s) .nil) cs
      simp [applyAriaNode, hl, allN, allF, hrw, h.1, htext]
    | none =>
      have hrw := hp tag props (applyAriaForest cs) cs
      simp only [applyAriaNode, hl, allN, hrw, h.1, Bool.true_and]
      exact allF_applyAria_pres p hp htext cs h.2
  | .text v, h => by
    simpa [applyAriaNode, allN] using h

theorem allF_applyAria_pres (p : HNode → Bool)
    (hp : ∀ tag props cs cs', p (.element tag props cs)
      = p (.element tag props cs'))
    (htext : ∀ v, p (.text v) = true) :
    ∀ cs : HForest, allF p cs = true → allF p (applyAriaForest cs) = true
  | .nil, _ => by simp [applyAriaForest, allF]
  | .cons n ns, h => by
    simp only [allF, Bool.and_eq_true] at h
    simp only [applyAriaForest, allF, Bool.and_eq_true]
    exact ⟨allN_applyAria_pres p hp htext n h.1,
      allF_applyAria_pres p hp htext ns h.2⟩

end

mutual

theorem labelGoodN_applyAria :
    ∀ n : HNode, labelGoodN (applyAriaNode n) = true
  | .element tag props cs => by
    cases hl : labelValue? props with
    | some s =>
      simp [applyAriaNode, hl, labelGoodN, labelGoodF]
    | none =>
      simp only [applyAriaNode, hl, labelGoodN, Bool.and_eq_true]
      exact ⟨by simp [hl], labelGoodF_applyAria cs⟩
  | .text v => by simp [applyAriaNode, labelGoodN]

theorem labelGoodF_applyAria :
    ∀ cs : HForest, labelGoodF (applyAriaForest cs) = true
  | .nil => by simp [applyAriaForest, labelGoodF]
  | .cons n ns => by
    simp only [applyAriaForest, labelGoodF, Bool.and_eq_true]
    exact ⟨labelGoodN_applyAria n, labelGoodF_applyAria ns⟩

end

mutual

theorem removeNode_eq_of_allN (test : HNode → Bool) :
    ∀ n : HNode, allN (fun x => !test x) n = true →
      removeNode test n = some n
  | .element tag props cs, h => by
    simp only [allN, Bool.and_eq_true, Bool.not_eq_true'] at h
    simp only [removeNode, h.1, Bool.false_eq_true, if_false]
    rw [removeForest_eq_of_allF test cs h.2]
    have hnil : (!isNilF cs && isNilF cs) = false := by
      cases cs <;> simp [isNilF]
    simp [hnil]
  | .text v, h => by
    simp only [allN, Bool.not_eq_true'] at h
    simp [removeNode, h]

theorem removeForest_eq_of_allF (test : HNode → Bool) :
    ∀ cs : HForest, allF (fun x => !test x) cs = true →
      removeForest test cs = cs
  | .nil, _ => rfl
  | .cons n ns, h => by
    simp only [allF, Bool.and_eq_true] at h
    simp only [removeForest, removeNode_eq_of_allN test n h.1,
      removeForest_eq_of_allF test ns h.2]

end

mutual

theorem applyAriaNode_eq_of_labelGood :
    ∀ n : HNode, labelGoodN n = true → applyAriaNode n = n
  | .element tag props cs, h => by
    simp only [labelGoodN, Bool.and_eq_true] at h
    cases hl : labelValue? props with
    | some s =>
      have h1 := h.1
      rw [hl] at h1
      cases cs with
      | nil => simp at h1
      | cons n ns =>
        cases n with
        | element t2 p2 c2 => simp at h1
        | text v =>
          cases ns with
          | cons m ms => simp at h1
          | nil =>
            have hv : v = s := by simpa using h1
            simp [applyAriaNode, hl, hv]
    | none =>
      simp only [applyAriaNode, hl]
      rw [applyAriaForest_eq_of_labelGood cs h.2]
  | .text v, _ => rfl

theorem applyAriaForest_eq_of_labelGood :
    ∀ cs : HForest, labelGoodF cs = true → applyAriaForest cs = cs
  | .nil, _ => rfl
  | .cons n ns, h => by
    simp only [labelGoodF, Bool.and_eq_true] at h
    simp only [applyAriaForest]
    rw [applyAriaNode_eq_of_labelGood n h.1,
      applyAriaForest_eq_of_labelGood ns h.2]

end

theorem accGoodF_accessibilityTransformer (cs : HForest) :
    accGoodF (accessibilityTransformer cs) = true := by
  unfold accGoodF accessibilityTransformer
  have h1 : allF (fun n => !ariaHiddenTest n)
      (removeForest ariaHiddenTest cs) = true :=
    allF_removeForest ariaHiddenTest ariaHiddenTest_indep cs
  have h2 : allF (fun n => !ariaHiddenTest n)
      (removeForest emptyAltImgTest (removeForest ariaHiddenTest cs)) = true :=
    allF_removeForest_pres _ _ (fun t p a b => by
      simp [ariaHiddenTest_indep t p a b]) _ h1
  have h3 : allF (fun n => !emptyAltImgTest n)
      (removeForest emptyAltImgTest (removeForest ariaHiddenTest cs)) = true :=
    allF_removeForest emptyAltImgTest emptyAltImgTest_indep _
  have h4 := allF_applyAria_pres (fun n => !ariaHiddenTest n)
    (fun t p a b => by simp [ariaHiddenTest_indep t p a b])
    (fun v => rfl) _ h2
  have h5 := allF_applyAria_pres (fun n => !emptyAltImgTest n)
    (fun t p a b => by simp [emptyAltImgTest_indep t p a b])
    (fun v => rfl) _ h3
  have h6 := labelGoodF_applyAria
    (removeForest emptyAltImgTest (removeForest ariaHiddenTest cs))
  simp [h4, h5, h6]

theorem accessibilityTransformer_eq_of_accGoodF (cs : HForest)
    (h : accGoodF cs = true) : accessibilityTransformer cs = cs := by
  unfold accGoodF at h
  simp only [Bool.and_eq_true] at h
  unfold accessibilityTransformer
  rw [removeForest_eq_of_allF ariaHiddenTest cs h.1.1,
    removeForest_eq_of_allF emptyAltImgTest cs h.1.2,
    applyAriaForest_eq_of_labelGood cs h.2]

/-- A small tree already satisfying all three accessibility rules. -/
def sampleCleanTree : HForest :=
  .cons (.element "p" [] (.cons (.text "hi") .nil)) .nil

/-- An element targeted by none of the claim's three rules: it is not
accessibility-hidden, not an image, and carries no accessible label; its
only child is an aria-hidden element. -/
def cascadeParent : HNode :=
  .element "div" []
    (.cons (.element "span" [("ariaHidden", PropVal.bool true)] .nil) .nil)

/-- C6 counterexample: the transform removes `cascadeParent` itself — an
element that matches neither removal rule and carries no label — because
`unist-util-remove`'s default cascade drops a parent whose children were
all removed; under the claim's three rules alone the element would remain
(emptied), so the transform does not apply exactly those three rules. -/
theorem c6_counterexample :
    ariaHiddenTest cascadeParent = false
    ∧ emptyAltImgTest cascadeParent = false
    ∧ labelValue? [] = none
    ∧ accessibilityTransformer (.cons cascadeParent .nil) = .nil := by
  refine ⟨rfl, rfl, rfl, ?_⟩
  rfl

/-- C6 (amended): the accessibility transform applies the three rules in
order, with each of the two removal passes additionally removing, per the
removal utility's default cascade, any element that had children but whose
children were all removed by that pass — after it runs, no element with a
truthy accessibility-hidden attribute occurs anywhere in the tree, no image
element with an exactly-empty alternative-text attribute occurs, and every
element carrying a truthy accessible-label attribute has exactly the
label's text node as its sole child; moreover the transform changes nothing
on a tree already satisfying all three rules (nothing matches, so neither
removal nor cascade nor substitution fires). -/
theorem c6_transformer_rules (cs : HForest) :
    accGoodF (accessibilityTransformer cs) = true
    ∧ (accGoodF cs = true → accessibilityTransformer cs = cs) :=
  ⟨accGoodF_accessibilityTransformer cs,
   accessibilityTransformer_eq_of_accGoodF cs⟩

theorem c6_transformer_rules_witness :
    accessibilityTransformer sampleCleanTree = sampleCleanTree :=
  (c6_transformer_rules sampleCleanTree).2
    (by simp [accGoodF, allF, allN, labelGoodF, labelGoodN, ariaHiddenTest,
      emptyAltImgTest, labelValue?, getProp, sampleCleanTree])

/-- C7: the accessibility transform is idempotent — applying it twice
yields the same tree as applying it once, for every input tree. -/
theorem c7_transformer_idempotent (cs : HForest) :
    accessibilityTransformer (accessibilityTransformer cs)
      = accessibilityTransformer cs :=
  accessibilityTransformer_eq_of_accGoodF _
    (accGoodF_accessibilityTransformer cs)

mutual

/-- `querySelector` restricted to tag-name selectors (the code's default
`main` selector and its `"h1"` query): first matching element in preorder. -/
def findTagN (sel : String) : HNode → Option HNode
  | .element tag props cs =>
    if tag == sel then some (.element tag props cs) else findTagF sel cs
  | .text _ => none

def findTagF (sel : String) : HForest → Option HNode
  | .nil => none
  | .cons n ns =>
    match findTagN sel n with
    | some h => some h
    | none => findTagF sel ns

end

mutual

/-- DOM `textContent`: concatenation of all text-node values in a subtree. -/
def textContentN : HNode → String
  | .element _ _ cs => textContentF cs
  | .text v => v

def textContentF : HForest → String
  | .nil => ""
  | .cons n ns => textContentN n ++ textContentF ns

end

mutual

/-- Number of elements with the given tag in a subtree (the node included). -/
def countTagN (sel : String) : HNode → Nat
  | .element tag _ cs => (if tag == sel then 1 else 0) + countTagF sel cs
  | .text _ => 0

def countTagF (sel : String) : HForest → Nat
  | .nil => 0
  | .cons n ns => countTagN sel n + countTagF sel ns

end

/-- DOM `h1.remove()` for the first element with the given tag in preorder:
returns the forest with that element's whole subtree detached, and whether
one was found. -/
def rmFirstF (sel : String) : HForest → HForest × Bool
  | .nil => (.nil, false)
  | .cons n ns =>
    match n with
    | .element tag props cs =>
      if tag == sel then (ns, true)
      else
        let r := rmFirstF sel cs
        if r.2 then (.cons (.element tag props r.1) ns, true)
        else
          let r2 := rmFirstF sel ns
          (.cons (.element tag props cs) r2.1, r2.2)
    | .text v =>
      let r2 := rmFirstF sel ns
      (.cons (.text v) r2.1, r2.2)

/-- JS `String.prototype.trim`: strip leading and trailing whitespace. -/
def trimString (s : String) : String :=
  String.mk
    (((s.data.dropWhile Char.isWhitespace).reverse.dropWhile
      Char.isWhitespace).reverse)

/-- Embedding of the title extraction in `buildEntryFromHtml`
(src/index.ts lines 163-165), applied to the children of the main root:
`const h1 = main.querySelector("h1"); const title = h1?.textContent?.trim()
?? "Untitled"; if (h1) h1.remove();` — returns the title and the content
forest after the removal. -/
def buildEntryCore (main : HForest) : String × HForest :=
  match findTagF "h1" main with
  | some h => (trimString (textContentN h), (rmFirstF "h1" main).1)
  | none => ("Untitled", main)

mutual

theorem findTagN_shape (sel : String) :
    ∀ (n : HNode) (h : HNode), findTagN sel n = some h →
      ∃ props cs, h = .element sel props cs
  | .element tag props cs, h, hh => by
    by_cases htag : (tag == sel) = true
    · simp only [findTagN, if_pos htag, Option.some.injEq] at hh
      have := eq_of_beq htag
      subst this
      exact ⟨props, cs, hh.symm⟩
    · simp only [findTagN, if_neg htag] at hh
      exact findTagF_shape sel cs h hh
  | .text v, h, hh => by simp [findTagN] at hh

theorem findTagF_shape (sel : String) :
    ∀ (cs : HForest) (h : HNode), findTagF sel cs = some h →
      ∃ props cs2, h = .element sel props cs2
  | .cons n ns, h, hh => by
    simp only [findTagF] at hh
    cases hn : findTagN sel n with
    | some h2 =>
      rw [hn] at hh
      simp only [Option.some.injEq] at hh
      subst hh
      exact findTagN_shape sel n h2 hn
    | none =>
      rw [hn] at hh
      exact findTagF_shape sel ns h hh

end

theorem countTagN_pos_of_found (sel : String) (cs : HForest) (h : HNode)
    (hh : findTagF sel cs = some h) : 1 ≤ countTagN sel h := by
  obtain ⟨props, cs2, rfl⟩ := findTagF_shape sel cs h hh
  simp [countTagN]

theorem rmFirstF_spec (sel : String) :
    ∀ cs : HForest,
      (findTagF sel cs = none → rmFirstF sel cs = (cs, false))
      ∧ (∀ h : HNode, findTagF sel cs = some h →
          (rmFirstF sel cs).2 = true
          ∧ countTagF sel (rmFirstF sel cs).1 + countTagN sel h
              = countTagF sel cs)
  | .nil => by
    constructor
    · intro _; rfl
    · intro h hh; simp [findTagF] at hh
  | .cons (.element tag props cs) ns => by
    have ihc := rmFirstF_spec sel cs
    have ihn := rmFirstF_spec sel ns
    by_cases htag : (tag == sel) = true
    · constructor
      · intro hnone
        simp [findTagF, findTagN, htag] at hnone
      · intro h hh
        simp only [findTagF, findTagN, if_pos htag] at hh
        simp only [Option.some.injEq] at hh
        subst hh
        simp only [rmFirstF, if_pos htag]
        refine ⟨by trivial, ?_⟩
        simp only [countTagF]
        omega
    · cases hc : findTagF sel cs with
      | some hcNode =>
        have hr2 := (ihc.2 hcNode hc).1
        have hrc := (ihc.2 hcNode hc).2
        constructor
        · intro hnone
          simp only [findTagF, findTagN, if_neg htag, hc] at hnone
          exact absurd hnone (by simp)
        · intro h hh
          simp only [findTagF, findTagN, if_neg htag, hc,
            Option.some.injEq] at hh
          subst hh
          simp only [rmFirstF, if_neg htag, hr2, if_pos, if_true]
          refine ⟨by trivial, ?_⟩
          simp only [countTagF, countTagN, htag, Bool.false_eq_true, if_false]
          omega
      | none =>
        have hrc : rmFirstF sel cs = (cs, false) := ihc.1 hc
        constructor
        · intro hnone
          simp only [findTagF, findTagN, if_neg htag, hc] at hnone
          have hrn : rmFirstF sel ns = (ns, false) := ihn.1 hnone
          simp only [rmFirstF, if_neg htag, hrc, hrn]
          simp
        · intro h hh
          simp only [findTagF, findTagN, if_neg htag, hc] at hh
          have hr2 := (ihn.2 h hh).1
          have hrn := (ihn.2 h hh).2
          simp only [rmFirstF, if_neg htag, hrc]
          simp only [Bool.false_eq_true, if_false]
          refine ⟨hr2, ?_⟩
          simp only [countTagF, countTagN, htag, Bool.false_eq_true, if_false]
          omega
  | .cons (.text v) ns => by
    have ihn := rmFirstF_spec sel ns
    constructor
    · intro hnone
      simp only [findTagF, findTagN] at hnone
      have hrn : rmFirstF sel ns = (ns, false) := ihn.1 hnone
      simp only [rmFirstF, hrn]
    · intro h hh
      simp only [findTagF, findTagN] at hh
      have hr2 := (ihn.2 h hh).1
      have hrn := (ihn.2 h hh).2
      simp only [rmFirstF]
      refine ⟨hr2, ?_⟩
      simp only [countTagF, countTagN]
      omega

/-- C8: if the main root's children contain a heading-level-1 element, the
title is that first heading's trimmed text and the heading's subtree is
removed from the content (the removed subtree contains at least one `h1`,
and the `h1` count of the result drops by exactly the removed subtree's
count); if there is none, the title is `"Untitled"` and the content is
unchanged. -/
theorem c8_title_extraction (main : HForest) :
    (∀ h : HNode, findTagF "h1" main = some h →
      (buildEntryCore main).1 = trimString (textContentN h)
      ∧ 1 ≤ countTagN "h1" h
      ∧ countTagF "h1" (buildEntryCore main).2 + countTagN "h1" h
          = countTagF "h1" main)
    ∧ (findTagF "h1" main = none →
        (buildEntryCore main).1 = "Untitled" ∧ (buildEntryCore main).2 = main) := by
  constructor
  · intro h hh
    have hspec := (rmFirstF_spec "h1" main).2 h hh
    refine ⟨?_, countTagN_pos_of_found "h1" main h hh, ?_⟩
    · simp [buildEntryCore, hh]
    · simp only [buildEntryCore, hh]
      exact hspec.2
  · intro hnone
    simp [buildEntryCore, hnone]

/-- A main root with a single heading and a paragraph. -/
def sampleMainTree : HForest :=
  .cons (.element "h1" [] (.cons (.text "Hello") .nil))
    (.cons (.element "p" [] (.cons (.text "body") .nil)) .nil)

/-- The heading node found inside `sampleMainTree`. -/
def sampleH1Node : HNode := .element "h1" [] (.cons (.text "Hello") .nil)

theorem c8_title_extraction_witness :
    (buildEntryCore sampleMainTree).1 = trimString (textContentN sampleH1Node)
    ∧ 1 ≤ countTagN "h1" sampleH1Node
    ∧ countTagF "h1" (buildEntryCore sampleMainTree).2
        + countTagN "h1" sampleH1Node = countTagF "h1" sampleMainTree :=
  (c8_title_extraction sampleMainTree).1 sampleH1Node
    (by simp [sampleMainTree, sampleH1Node, findTagF, findTagN])

/-- A main root whose only heading has whitespace-only text. -/
def sampleBlankH1Tree : HForest :=
  .cons (.element "h1" [] (.cons (.text "  ") .nil)) .nil

/-- The whitespace-only heading inside `sampleBlankH1Tree`. -/
def sampleBlankH1Node : HNode := .element "h1" [] (.cons (.text "  ") .nil)

/-- C10: a heading-level-1 element with empty or whitespace-only text
yields the empty-string title, not `"Untitled"`; the `"Untitled"` fallback
is produced by the branch taken only when no heading-level-1 element exists
in the main root. -/
theorem c10_blank_title (main : HForest) :
    (∀ h : HNode, findTagF "h1" main = some h →
      trimString (textContentN h) = "" →
      (buildEntryCore main).1 = "" ∧ (buildEntryCore main).1 ≠ "Untitled")
    ∧ (findTagF "h1" main = none → (buildEntryCore main).1 = "Untitled") := by
  constructor
  · intro h hh htrim
    have : (buildEntryCore main).1 = trimString (textContentN h) := by
      simp [buildEntryCore, hh]
    rw [this, htrim]
    exact ⟨rfl, by decide⟩
  · intro hnone
    simp [buildEntryCore, hnone]

theorem c10_blank_title_witness :
    (buildEntryCore sampleBlankH1Tree).1 = ""
    ∧ (buildEntryCore sampleBlankH1Tree).1 ≠ "Untitled" :=
  (c10_blank_title sampleBlankH1Tree).1 sampleBlankH1Node
    (by simp [sampleBlankH1Tree, sampleBlankH1Node, findTagF, findTagN])
    (by decide)

/-- JS `pn.replace(/\/$/, "")`: drop a single trailing slash. -/
def stripTrail (pn : String) : String :=
  if pn.data.getLast? = some '/' then String.mk pn.data.dropLast else pn

/-- `path.join(distDir, pn.replace(/\/$/, ""), "index.html")` from
src/index.ts line 127, modelled as plain separator concatenation. -/
def htmlPath (distDir pn : String) : String :=
  distDir ++ "/" ++ stripTrail pn ++ "/index.html"

/-- The message logged at src/index.ts line 133 when a page is skipped. -/
def warnMsg (distDir pn : String) : String :=
  "❌ File not found: " ++ htmlPath distDir pn

/-- The per-page loop of `processDocSet` (src/index.ts lines 124-135):
for each sorted pathname, try to build an entry from its HTML file; on
success push the entry, on failure log the warning and continue. `build`
stands for the fallible `fs.access` + `buildEntryFromHtml` step. Returns
(entries, logged warnings). -/
def runPages (build : String → Option String) (distDir : String) :
    List String → List String × List String
  | [] => ([], [])
  | pn :: rest =>
    let r := runPages build distDir rest
    match build (htmlPath distDir pn) with
    | some entry => (entry :: r.1, r.2)
    | none => (r.1, warnMsg distDir pn :: r.2)

/-- Children of an element node (`nil` for a text node). -/
def childrenOf : HNode → HForest
  | .element _ _ cs => cs
  | .text _ => .nil

/-- Embedding of `buildEntryFromHtml` (src/index.ts lines 151-183).
`lookup` models `fs.readFile` plus JSDOM parsing (`none` when the file is
absent); `metaOf` models the `meta[name="description"]` content query;
`flatten` models `entryToSimpleMarkdown` (a module not part of the core
sources, kept abstract). Returns `none` exactly when the HTML is missing or
no element matches the main selector (the thrown `Missing main selector`
error, caught by the caller's `try`/`catch`). -/
def buildEntryFromHtml (lookup : String → Option HForest)
    (metaOf : HForest → Option String) (flatten : HForest → String)
    (mainSelector : String) (p : String) : Option String :=
  match lookup p with
  | none => none
  | some doc =>
    match findTagF mainSelector doc with
    | none => none
    | some mainEl =>
      let t := buildEntryCore (childrenOf mainEl)
      let metaPart : List String :=
        match metaOf doc with
        | some d => if d == "" then [] else ["> " ++ d]
        | none => []
      some (String.intercalate "\n\n"
        (["# " ++ t.1] ++ metaPart ++ [trimString (flatten t.2)]))

theorem data_append (a b : String) : (a ++ b).data = a.data ++ b.data := rfl

theorem getLast?_decomp {α : Type} :
    ∀ (l : List α) (c : α), l.getLast? = some c → l = l.dropLast ++ [c]
  | [], c, h => by simp at h
  | [a], c, h => by
    simp only [List.getLast?_singleton, Option.some.injEq] at h
    subst h
    simp
  | a :: b :: l, c, h => by
    rw [List.getLast?_cons_cons] at h
    have ih := getLast?_decomp (b :: l) c h
    rw [List.dropLast_cons₂, List.cons_append, ← ih]

theorem pn_infix_warnMsg (distDir pn : String) :
    pn.data <:+: (warnMsg distDir pn).data := by
  unfold warnMsg htmlPath stripTrail
  by_cases hl : pn.data.getLast? = some '/'
  · rw [if_pos hl]
    have hdec := getLast?_decomp pn.data '/' hl
    refine ⟨("❌ File not found: " ++ distDir ++ "/").data,
      "index.html".data, ?_⟩
    simp only [data_append]
    conv_lhs => rw [hdec]
    simp
  · rw [if_neg hl]
    refine ⟨("❌ File not found: " ++ distDir ++ "/").data,
      "/index.html".data, ?_⟩
    simp [data_append]

theorem runPages_entries (build : String → Option String) (distDir : String) :
    ∀ pns : List String, (runPages build distDir pns).1
      = pns.filterMap (fun pn => build (htmlPath distDir pn))
  | [] => rfl
  | pn :: rest => by
    simp only [runPages, List.filterMap_cons]
    cases hb : build (htmlPath distDir pn) with
    | some entry => simp [runPages_entries build distDir rest]
    | none => simp [runPages_entries build distDir rest]

theorem runPages_warnings (build : String → Option String) (distDir : String) :
    ∀ pns : List String, (runPages build distDir pns).2
      = (pns.filter
          (fun pn => (build (htmlPath distDir pn)).isNone)).map
          (fun pn => warnMsg distDir pn)
  | [] => rfl
  | pn :: rest => by
    simp only [runPages, List.filter_cons]
    cases hb : build (htmlPath distDir pn) with
    | some entry => simp [runPages_warnings build distDir rest]
    | none => simp [runPages_warnings build distDir rest]

theorem runPages_total (build : String → Option String) (distDir : String) :
    ∀ pns : List String,
      (runPages build distDir pns).1.length
        + (runPages build distDir pns).2.length = pns.length
  | [] => rfl
  | pn :: rest => by
    have ih := runPages_total build distDir rest
    simp only [runPages]
    cases hb : build (htmlPath distDir pn) with
    | some entry => simp only [List.length_cons]; omega
    | none => simp only [List.length_cons]; omega

/-- C5: the per-page loop never aborts — every page appears either as an
entry or as a logged warning: the entries are exactly the successfully
built pages in order, the warning list is exactly one message per failed
page and each message contains that page's path, entry count plus warning
count equals the number of selected pages, and `buildEntryFromHtml` fails
(only) when the page's HTML cannot be retrieved or no element matches the
main-content selector, succeeding whenever both are present. -/
theorem c5_skip_and_continue (lookup : String → Option HForest)
    (metaOf : HForest → Option String) (flatten : HForest → String)
    (mainSel distDir : String) (pns : List String) :
    (runPages (buildEntryFromHtml lookup metaOf flatten mainSel) distDir pns).1
      = pns.filterMap (fun pn =>
          buildEntryFromHtml lookup metaOf flatten mainSel (htmlPath distDir pn))
    ∧ (runPages (buildEntryFromHtml lookup metaOf flatten mainSel) distDir pns).2
      = (pns.filter (fun pn =>
          (buildEntryFromHtml lookup metaOf flatten mainSel
            (htmlPath distDir pn)).isNone)).map (fun pn => warnMsg distDir pn)
    ∧ (runPages (buildEntryFromHtml lookup metaOf flatten mainSel) distDir pns).1.length
        + (runPages (buildEntryFromHtml lookup metaOf flatten mainSel) distDir pns).2.length
        = pns.length
    ∧ (∀ pn : String, pn.data <:+: (warnMsg distDir pn).data)
    ∧ (∀ p : String, lookup p = none →
        buildEntryFromHtml lookup metaOf flatten mainSel p = none)
    ∧ (∀ (p : String) (doc : HForest), lookup p = some doc →
        findTagF mainSel doc = none →
        buildEntryFromHtml lookup metaOf flatten mainSel p = none)
    ∧ (∀ (p : String) (doc : HForest) (m : HNode), lookup p = some doc →
        findTagF mainSel doc = some m →
        (buildEntryFromHtml lookup metaOf flatten mainSel p).isSome = true) := by
  refine ⟨runPages_entries _ _ _, runPages_warnings _ _ _, runPages_total _ _ _,
    pn_infix_warnMsg distDir, ?_, ?_, ?_⟩
  · intro p hp
    simp [buildEntryFromHtml, hp]
  · intro p doc hp hm
    simp [buildEntryFromHtml, hp, hm]
  · intro p doc m hp hm
    simp [buildEntryFromHtml, hp, hm]

/-- A parsed document whose `main` element contains `sampleMainTree`. -/
def sampleDoc : HForest := .cons (.element "main" [] sampleMainTree) .nil

/-- A lookup serving one complete document at `"A"`, one document with no
`main` element at `"B"`, and nothing elsewhere. -/
def sampleLookup : String → Option HForest := fun p =>
  if p == "A" then some sampleDoc else if p == "B" then some .nil else none

theorem c5_skip_and_continue_witness :
    buildEntryFromHtml sampleLookup (fun _ => none) (fun _ => "") "main" "C" = none
    ∧ buildEntryFromHtml sampleLookup (fun _ => none) (fun _ => "") "main" "B" = none
    ∧ (buildEntryFromHtml sampleLookup (fun _ => none) (fun _ => "") "main" "A").isSome
        = true := by
  have h := c5_skip_and_continue sampleLookup (fun _ => none) (fun _ => "")
    "main" "dist" []
  refine ⟨h.2.2.2.2.1 "C" (by simp [sampleLookup]),
    h.2.2.2.2.2.1 "B" HForest.nil (by simp [sampleLookup]) (by simp [findTagF]),
    h.2.2.2.2.2.2 "A" sampleDoc (.element "main" [] sampleMainTree)
      (by simp [sampleLookup]) (by simp [sampleDoc, findTagF, findTagN])⟩
